import Mathlib

/-!
Shallow embedding of `src/plugantic/plugin.py`.

A `PClass` models a declared plugin class after `__init_subclass__` has
processed it: `varnameType` is `__plugantic_varname_type__`, `declaredType`
is the value computed by `_get_declared_type` (the first argument of the
`Literal` annotation of the discriminator field, `none` when there is no
literal annotation), `wasSchemaCreated` is `__plugantic_was_schema_created__`
and `checkSchemaUsage` is `__plugantic_check_schema_usage__`.

The subclass hierarchy is modelled by `PTree`: a node carries its class and
the list of its direct subclasses (`cls.__subclasses__()`).  A class reachable
through several bases (diamond declarations) appears as several nodes with
equal `PClass` data; the source deduplicates through Python `set` semantics,
modelled here with `Finset` / `List.dedup`.
-/

set_option maxHeartbeats 1000000

namespace Plugantic

structure PClass where
  name : String
  varnameType : String
  declaredType : Option String
  wasSchemaCreated : Bool
  checkSchemaUsage : Bool
deriving DecidableEq, Repr

/-- `PluginModel._is_valid_subclass`: `if cls._get_declared_type(): return True`.
Python truthiness: `None` and the empty string are falsy. -/
def isValidSubclass (c : PClass) : Bool :=
  match c.declaredType with
  | none => false
  | some s => decide (s ≠ "")

/-- The subclass tree below (and including) one hierarchy root. -/
inductive PTree where
  | node (cls : PClass) (children : List PTree)

/-- The root class of a hierarchy. -/
def PTree.root : PTree → PClass
  | .node c _ => c

mutual
/-- `PluginModel._get_valid_subclasses`, before the `set` deduplication:
the class itself when `_is_valid_subclass`, then every subclass recursively. -/
def PTree.validList : PTree → List PClass
  | .node c cs => (if isValidSubclass c then [c] else []) ++ validListAux cs

def validListAux : List PTree → List PClass
  | [] => []
  | t :: ts => t.validList ++ validListAux ts
end

mutual
/-- Every class declared in the hierarchy (all tree nodes). -/
def PTree.nodesList : PTree → List PClass
  | .node c cs => c :: nodesListAux cs

def nodesListAux : List PTree → List PClass
  | [] => []
  | t :: ts => t.nodesList ++ nodesListAux ts
end

/-- `PluginModel._get_valid_subclasses` with the Python `set` semantics. -/
def PTree.getValidSubclasses (t : PTree) : Finset PClass :=
  t.validList.toFinset

/-- A combinator expression: leaves are hierarchy roots, internal nodes are the
`PluganticCombinedAnd` / `PluganticCombinedOr` objects.  Every construction in
the source (`__and__`, `__rand__`, `__or__`, `__ror__`) passes exactly two
items, so the nodes are binary. -/
inductive Expr where
  | leaf (t : PTree)
  | andE (a b : Expr)
  | orE (a b : Expr)

/-- `_get_valid_subclasses` of a combinator expression.  The `andE` branch
mirrors the loop of `PluganticCombinedAnd._get_valid_subclasses`: start with
the first item, return early when the running set is empty, otherwise
`intersection_update`; the final `items or set()` turns a falsy (empty) result
into a fresh empty set.  The `orE` branch mirrors `PluganticCombinedOr`. -/
def Expr.evaluate : Expr → Finset PClass
  | .leaf t => t.getValidSubclasses
  | .andE a b =>
      let s := a.evaluate
      if s = ∅ then s
      else
        let s2 := s ∩ b.evaluate
        if s2 = ∅ then ∅ else s2
  | .orE a b =>
      let s := a.evaluate ∪ b.evaluate
      if s = ∅ then ∅ else s

/-- The schema value handed back to the validation engine.  `direct c` models
`handler(subcls)` (the variant's own schema, opaque to the core);
`taggedUnion` models `tagged_union_schema(choices, discriminator=...)`;
`union` models `union_schema(unions)`.  Both pydantic constructors merely
package their arguments, so they are plain constructors here. -/
inductive CoreSchema where
  | direct (c : PClass)
  | taggedUnion (discriminator : String) (choices : List (Option String × CoreSchema))
  | union (choices : List CoreSchema)

/-- Lookup in an insertion-ordered dictionary (Python `dict` access). -/
def assocLookup {α β : Type} [DecidableEq α] : List (α × β) → α → Option β
  | [], _ => none
  | (k, v) :: rest, k2 => if k2 = k then some v else assocLookup rest k2

/-- Assignment in an insertion-ordered dictionary (`d[k] = v`): an existing
key keeps its position and has its value replaced, a new key is appended. -/
def dictSet {α β : Type} [DecidableEq α] : List (α × β) → α → β → List (α × β)
  | [], k, v => [(k, v)]
  | (k2, v2) :: rest, k, v =>
      if k = k2 then (k, v) :: rest else (k2, v2) :: dictSet rest k v

/-- Folding a sequence into a dictionary with one assignment per element. -/
def foldInsert {α κ β : Type} [DecidableEq κ]
    (key : α → κ) (val : α → β) (l : List α) (m : List (κ × β)) : List (κ × β) :=
  l.foldl (fun m c => dictSet m (key c) (val c)) m

/-- The dict comprehension of `PluginModel._as_tagged_union`:
`{subcls._get_declared_type(): handler(subcls) for subcls in subclasses}`. -/
def buildChoicesFlat (l : List PClass) : List (Option String × CoreSchema) :=
  foldInsert PClass.declaredType CoreSchema.direct l []

/-- `PluginModel._as_tagged_union`, taking the iteration order of
`set(cls._get_valid_subclasses())` as a list: a single member is handed to
the handler directly, otherwise a tagged union over the declared types is
built with the root's discriminator field.  The body raises nothing, so the
result is always `Except.ok`. -/
def asTaggedUnion (vt : String) (l : List PClass) : Except String CoreSchema :=
  match l with
  | [v] => Except.ok (CoreSchema.direct v)
  | _ => Except.ok (CoreSchema.taggedUnion vt (buildChoicesFlat l))

/-- One step of the loop in `PluganticCombinedModel.__get_pydantic_core_schema__`:
`choices.setdefault(subcls.__plugantic_varname_type__, {})[subcls._get_declared_type()] = handler(subcls)`. -/
def addChoice (m : List (String × List (Option String × CoreSchema))) (c : PClass) :
    List (String × List (Option String × CoreSchema)) :=
  let inner := (assocLookup m c.varnameType).getD []
  dictSet m c.varnameType (dictSet inner c.declaredType (CoreSchema.direct c))

/-- The grouping loop of `PluganticCombinedModel.__get_pydantic_core_schema__`. -/
def buildChoices (l : List PClass) : List (String × List (Option String × CoreSchema)) :=
  l.foldl addChoice []

/-- `if len(unions) == 1: return unions.pop()` followed by `union_schema(unions)`. -/
def schemaOfUnions (unions : List CoreSchema) : CoreSchema :=
  match unions with
  | [u] => u
  | us => CoreSchema.union us

/-- `PluganticCombinedModel.__get_pydantic_core_schema__`, taking the
iteration order of `set(self._get_valid_subclasses())` as a list: a single
member is handed to the handler directly, otherwise the members are grouped
by discriminator field name into per-field tagged unions, a sole tagged
union is returned unwrapped and several are wrapped in an undiscriminated
union.  The body raises nothing, so the result is always `Except.ok`. -/
def combinedSchema (l : List PClass) : Except String CoreSchema :=
  match l with
  | [v] => Except.ok (CoreSchema.direct v)
  | l =>
      Except.ok (schemaOfUnions
        ((buildChoices l).map (fun dc => CoreSchema.taggedUnion dc.1 dc.2)))

/-- Two-level lookup into the grouped choices: field name, then value (a
missing field name behaves like an empty inner dictionary). -/
def innerLookup (m : List (String × List (Option String × CoreSchema)))
    (f : String) (dv : Option String) : Option CoreSchema :=
  assocLookup ((assocLookup m f).getD []) dv

/-- The keys of an insertion-ordered dictionary. -/
def keysOf {α β : Type} (m : List (α × β)) : List α := m.map Prod.fst

/-- `_mark_schame_created` applied to one class record when its name is among
the names a compilation marked. -/
def markClass (ns : List String) (c : PClass) : PClass :=
  if c.name ∈ ns then { c with wasSchemaCreated := true } else c

mutual
/-- Set `__plugantic_was_schema_created__` on every class whose name is in `ns`. -/
def PTree.mark (ns : List String) : PTree → PTree
  | .node c cs => .node (markClass ns c) (markAux ns cs)

def markAux (ns : List String) : List PTree → List PTree
  | [] => []
  | t :: ts => PTree.mark ns t :: markAux ns ts
end

mutual
/-- The chain of classes from the hierarchy root down to the class named `p`:
the part of the new subclass's `mro()` that lies inside the hierarchy. -/
def PTree.pathTo : PTree → String → Option (List PClass)
  | .node c cs, p =>
      if c.name = p then some [c] else (pathToAux cs p).map (fun l => c :: l)

def pathToAux : List PTree → String → Option (List PClass)
  | [], _ => none
  | t :: ts, p =>
      match t.pathTo p with
      | some l => some l
      | none => pathToAux ts p
end

/-- The loop of `_check_plugantic_schema_usage`: some class on the ancestor
chain down to `p` has `__plugantic_was_schema_created__` set.  Classes above
the hierarchy root (`PluginModel`, `BaseModel`, `object`) are never marked by
a compilation of this hierarchy and contribute nothing. -/
def anyFlagOnPath (t : PTree) (p : String) : Bool :=
  ((t.pathTo p).getD []).any (fun x => x.wasSchemaCreated)

/-- No schema has been created from any class of the hierarchy yet. -/
def noneFlagged (t : PTree) : Bool :=
  t.nodesList.all (fun x => !x.wasSchemaCreated)

mutual
/-- Registering a new subclass: the parent named `p` gains the new leaf in its
`__subclasses__()` list (under every tree occurrence of the parent). -/
def PTree.addChild : PTree → String → PClass → PTree
  | .node c cs, p, nw =>
      if c.name = p then .node c (addChildAux cs p nw ++ [.node nw []])
      else .node c (addChildAux cs p nw)

def addChildAux : List PTree → String → PClass → List PTree
  | [], _, _ => []
  | t :: ts, p, nw => t.addChild p nw :: addChildAux ts p nw
end

/-- The message of the `ValueError` raised by `PluginModel.__init_subclass__`. -/
def schemaCreatedMsg (n : String) : String :=
  "Schema of " ++ n ++ " has already been created. Creating new subclasses after the schema has been created will lead to undefined behaviour."

/-- `PluginModel.__init_subclass__` declaring the new class `c` under the
class named `p`: `_check_plugantic_schema_usage` consults the new class's
`__plugantic_check_schema_usage__` (inherited from the parent unless the
class body overrides it — carried here on `c`) and the
`__plugantic_was_schema_created__` flags along `cls.mro()`: the new class's
own inherited or body-set flag, and the chain through the hierarchy.  On
success the class is registered with `__plugantic_was_schema_created__`
reset to `False`. -/
def declareUnder (t : PTree) (p : String) (c : PClass) : Except String PTree :=
  if c.checkSchemaUsage && (c.wasSchemaCreated || anyFlagOnPath t p) then
    Except.error (schemaCreatedMsg c.name)
  else
    Except.ok (t.addChild p { c with wasSchemaCreated := false })

/-- The names marked by `PluginModel.__get_pydantic_core_schema__` on the
bare path: the root itself (`cls._mark_schame_created()`) and every member of
the resolved valid-subclass set (marked inside `_as_tagged_union`). -/
def compileMarkNames (t : PTree) : List String :=
  (PTree.root t).name :: (t.validList.dedup.map PClass.name)

/-- The subset of pydantic `FieldInfo` relevant here: the default value plus
representative other metadata (a description and constraint metadata). -/
structure FieldInfo where
  default : Option String
  description : Option String
  metadata : List String
deriving DecidableEq, Repr

/-- A class attribute slot as read by `getattr(cls, name, cls._NoValue)`:
absent, a plain value, or a `FieldInfo`. -/
inductive Attr where
  | noValue
  | plain (s : String)
  | field (fi : FieldInfo)
deriving DecidableEq, Repr

/-- Modelled from the spec: `FieldInfo.merge_field_infos` is external pydantic
code (an out-of-scope collaborator of this repository).  Per its documented
semantics and the specification sentence that the merge must preserve existing
metadata and only change the default, attributes explicitly set on the later
field info override the earlier one, everything else is inherited, and
constraint metadata accumulates. -/
def mergeFieldInfos (a b : FieldInfo) : FieldInfo :=
  { default := if b.default.isSome then b.default else a.default
    description := if b.description.isSome then b.description else a.description
    metadata := a.metadata ++ b.metadata }

/-- `Field(default=value)`: a field info with only the default set. -/
def fieldWithDefault (v : String) : FieldInfo := ⟨some v, none, []⟩

/-- `PluginModel._create_field_default`: an existing `FieldInfo` with the same
default is left alone, any other `FieldInfo` is merged with
`Field(default=value)` (the merged object is new, so the identity comparison
with the old attribute fails and it is stored); a plain equal value is left
alone, anything else (including the `_NoValue` sentinel) is overwritten. -/
def createFieldDefault (actual : Attr) (value : String) : Attr :=
  match actual with
  | .field fi =>
      if fi.default = some value then Attr.field fi
      else Attr.field (mergeFieldInfos fi (fieldWithDefault value))
  | .plain s => if s = value then Attr.plain s else Attr.plain value
  | .noValue => Attr.plain value

/-- A discriminator field annotation: a `Literal[...]` with its argument list
(Python's `Literal` requires at least one argument) or anything else. -/
inductive TypeHint where
  | lit (first : String) (rest : List String)
  | other
deriving DecidableEq, Repr

/-- `PluginModel._get_declared_type`: `get_args(field)[0]` — the FIRST
argument of the `Literal` annotation, `None` for any other annotation. -/
def getDeclaredType : TypeHint → Option String
  | .lit v _ => some v
  | .other => none

/-- `PluginModel._ensure_varname_default` acting on the discriminator field's
class attribute: `if not declared_type: return` (Python truthiness), else
`_create_field_default(varname, declared_type)`. -/
def ensureVarnameDefault (ann : TypeHint) (attr : Attr) : Attr :=
  match getDeclaredType ann with
  | none => attr
  | some v => if v = "" then attr else createFieldDefault attr v

/-- `PluginModel.__init__`: when the class declares a truthy discriminator
literal, the keyword arguments become
`{self.__plugantic_varname_type__: declared_type, **kwargs}` — the injected
default comes first and explicit keywords override it. -/
def initKwargs (c : PClass) (kwargs : List (String × String)) : List (String × String) :=
  match c.declaredType with
  | none => kwargs
  | some v =>
      if v = "" then kwargs else foldInsert Prod.fst Prod.snd kwargs [(c.varnameType, v)]

/-- Validation of a discriminator value by the external engine against the
field's `Literal` annotation. -/
def validatesLiteral (ann : TypeHint) (s : String) : Bool :=
  match ann with
  | .lit v rest => decide (s = v) || rest.contains s
  | .other => true

/-! Concrete classes and hierarchies used by the witnesses, following the
scenario of the specification: `Animal` is an abstract root, `Dog` and `Cat`
declare `type` literals, `Kind` uses the discriminator field `kind`. -/

def AnimalC : PClass := ⟨"Animal", "type", none, false, true⟩

def DogC : PClass := ⟨"Dog", "type", some "dog", false, true⟩

def CatC : PClass := ⟨"Cat", "type", some "cat", false, true⟩

def KindC : PClass := ⟨"Kind", "kind", some "kindling", false, true⟩

/-- A second variant colliding with `Dog` on field `type` and literal `dog`. -/
def Dog2C : PClass := ⟨"Dog2", "type", some "dog", false, true⟩

/-- A new descendant declared under `Dog`. -/
def NewDogC : PClass := ⟨"NewDog", "type", some "newdog", false, true⟩

def animalTree : PTree := .node AnimalC [.node DogC [], .node CatC []]

/-- A hierarchy whose variants span two discriminator field names. -/
def mixedTree : PTree := .node AnimalC [.node DogC [], .node KindC []]

/-- `PluginModel.__get_pydantic_core_schema__` at a hierarchy root: it resolves
`set(cls._get_valid_subclasses())` (the deduplicated valid list) and hands it
to `_as_tagged_union` with the root's discriminator field name. -/
def bareCoreSchema (t : PTree) : Except String CoreSchema :=
  asTaggedUnion (PTree.root t).varnameType t.validList.dedup

end Plugantic

namespace Plugantic

theorem evaluate_andE (a b : Expr) :
    (Expr.andE a b).evaluate = a.evaluate ∩ b.evaluate := by
  show (if a.evaluate = ∅ then a.evaluate
        else if a.evaluate ∩ b.evaluate = ∅ then ∅ else a.evaluate ∩ b.evaluate)
      = a.evaluate ∩ b.evaluate
  by_cases h : a.evaluate = ∅
  · simp [h]
  · by_cases h2 : a.evaluate ∩ b.evaluate = ∅ <;> simp [h, h2]

theorem evaluate_orE (a b : Expr) :
    (Expr.orE a b).evaluate = a.evaluate ∪ b.evaluate := by
  show (if a.evaluate ∪ b.evaluate = ∅ then ∅ else a.evaluate ∪ b.evaluate)
      = a.evaluate ∪ b.evaluate
  by_cases h : a.evaluate ∪ b.evaluate = ∅ <;> simp [h]

/-- C1: evaluating `AND` is set intersection and evaluating `OR` is set union,
for arbitrary nested operand expressions, and both are independent of the
operand order. -/
theorem evaluate_and_inter_or_union (a b : Expr) :
    (Expr.andE a b).evaluate = a.evaluate ∩ b.evaluate ∧
    (Expr.orE a b).evaluate = a.evaluate ∪ b.evaluate ∧
    (Expr.andE a b).evaluate = (Expr.andE b a).evaluate ∧
    (Expr.orE a b).evaluate = (Expr.orE b a).evaluate := by
  refine ⟨evaluate_andE a b, evaluate_orE a b, ?_, ?_⟩
  · rw [evaluate_andE, evaluate_andE, Finset.inter_comm]
  · rw [evaluate_orE, evaluate_orE, Finset.union_comm]

mutual
theorem mem_validList (t : PTree) (v : PClass) :
    v ∈ t.validList ↔ (isValidSubclass v = true ∧ v ∈ t.nodesList) := by
  cases t with
  | node c cs =>
    simp only [PTree.validList, PTree.nodesList, List.mem_append, List.mem_cons]
    constructor
    · intro h
      cases h with
      | inl h =>
        by_cases hc : isValidSubclass c
        · simp only [hc, if_true, List.mem_singleton] at h
          subst h
          exact ⟨hc, Or.inl rfl⟩
        · simp [hc] at h
      | inr h =>
        have h2 := (mem_validListAux cs v).1 h
        exact ⟨h2.1, Or.inr h2.2⟩
    · rintro ⟨hv, h | h⟩
      · subst h
        left
        simp [hv]
      · exact Or.inr ((mem_validListAux cs v).2 ⟨hv, h⟩)

theorem mem_validListAux (ts : List PTree) (v : PClass) :
    v ∈ validListAux ts ↔ (isValidSubclass v = true ∧ v ∈ nodesListAux ts) := by
  cases ts with
  | nil => simp [validListAux, nodesListAux]
  | cons t ts =>
    simp only [validListAux, nodesListAux, List.mem_append]
    constructor
    · intro h
      cases h with
      | inl h =>
        have h2 := (mem_validList t v).1 h
        exact ⟨h2.1, Or.inl h2.2⟩
      | inr h =>
        have h2 := (mem_validListAux ts v).1 h
        exact ⟨h2.1, Or.inr h2.2⟩
    · rintro ⟨hv, h | h⟩
      · exact Or.inl ((mem_validList t v).2 ⟨hv, h⟩)
      · exact Or.inr ((mem_validListAux ts v).2 ⟨hv, h⟩)
end

/-- C2: a class is in the resolved valid-subclass set of a hierarchy root iff
it has a declared discriminator literal and is declared in that hierarchy
(equal to the root or a descendant); a hierarchy whose classes all lack a
literal resolves to the empty set (a valid result, not an error).  The
hypothesis excludes the empty-string literal, which the specification rules
out (a discriminator value is a single literal identifier). -/
theorem mem_getValidSubclasses_iff (t : PTree) (v : PClass)
    (hv : v.declaredType ≠ some "") :
    (v ∈ t.getValidSubclasses ↔ (v.declaredType.isSome = true ∧ v ∈ t.nodesList)) ∧
    ((∀ w ∈ t.nodesList, w.declaredType = none) → t.getValidSubclasses = ∅) := by
  have hbridge : isValidSubclass v = true ↔ v.declaredType.isSome = true := by
    cases hd : v.declaredType with
    | none => simp [isValidSubclass, hd]
    | some s =>
      have hs : s ≠ "" := fun h => hv (by rw [hd, h])
      simp [isValidSubclass, hd, hs]
  constructor
  · rw [PTree.getValidSubclasses, List.mem_toFinset, mem_validList, hbridge]
  · intro hall
    apply Finset.eq_empty_iff_forall_not_mem.2
    intro x hx
    rw [PTree.getValidSubclasses, List.mem_toFinset, mem_validList] at hx
    have hnone := hall x hx.2
    have h1 := hx.1
    simp [isValidSubclass, hnone] at h1

/-- Witness for C2 at the concrete `Animal` hierarchy and the `Dog` variant. -/
theorem mem_getValidSubclasses_iff_witness :
    (DogC ∈ animalTree.getValidSubclasses ↔
      (DogC.declaredType.isSome = true ∧ DogC ∈ animalTree.nodesList)) ∧
    ((∀ w ∈ animalTree.nodesList, w.declaredType = none) →
      animalTree.getValidSubclasses = ∅) :=
  mem_getValidSubclasses_iff animalTree DogC (by decide)

theorem assocLookup_dictSet_self {α β : Type} [DecidableEq α]
    (m : List (α × β)) (k : α) (v : β) :
    assocLookup (dictSet m k v) k = some v := by
  induction m with
  | nil => simp [dictSet, assocLookup]
  | cons kv rest ih =>
    obtain ⟨k2, v2⟩ := kv
    by_cases h : k = k2
    · simp [dictSet, h, assocLookup]
    · simp [dictSet, h, assocLookup, ih]

theorem assocLookup_dictSet_ne {α β : Type} [DecidableEq α]
    (m : List (α × β)) (k k2 : α) (v : β) (h : k2 ≠ k) :
    assocLookup (dictSet m k v) k2 = assocLookup m k2 := by
  induction m with
  | nil => simp [dictSet, assocLookup, h]
  | cons kv rest ih =>
    obtain ⟨k3, v3⟩ := kv
    by_cases h3 : k = k3
    · subst h3
      simp [dictSet, assocLookup, h]
    · by_cases h4 : k2 = k3 <;> simp [dictSet, assocLookup, h3, h4, ih]

/-- Last-write-wins: a dictionary built by repeated assignment answers each
key with the value of the last element that wrote to it. -/
theorem foldInsert_lookup {α κ β : Type} [DecidableEq κ]
    (key : α → κ) (val : α → β) (l : List α) (m : List (κ × β)) (k : κ) :
    assocLookup (foldInsert key val l m) k =
      match (l.filter (fun c => decide (key c = k))).getLast? with
      | some c => some (val c)
      | none => assocLookup m k := by
  induction l using List.reverseRecOn with
  | nil => simp [foldInsert]
  | append_singleton xs x ih =>
    rw [foldInsert, List.foldl_append]
    rw [show (xs.foldl (fun m c => dictSet m (key c) (val c)) m) = foldInsert key val xs m from rfl]
    rw [List.filter_append]
    simp only [List.foldl_cons, List.foldl_nil]
    by_cases hx : key x = k
    · simp [hx, assocLookup_dictSet_self, List.getLast?_concat]
    · rw [assocLookup_dictSet_ne _ _ _ _ (fun h => hx h.symm), ih]
      simp [hx]

theorem innerLookup_addChoice (m : List (String × List (Option String × CoreSchema)))
    (c : PClass) (f : String) (dv : Option String) :
    innerLookup (addChoice m c) f dv =
      if c.varnameType = f ∧ c.declaredType = dv then some (CoreSchema.direct c)
      else innerLookup m f dv := by
  by_cases hf : c.varnameType = f
  · subst hf
    rw [innerLookup, addChoice, assocLookup_dictSet_self, Option.getD_some]
    by_cases hdv : c.declaredType = dv
    · subst hdv
      simp [assocLookup_dictSet_self]
    · rw [assocLookup_dictSet_ne _ _ _ _ (fun h => hdv h.symm)]
      simp only [hdv, and_false, if_false, innerLookup]
  · rw [innerLookup, addChoice, assocLookup_dictSet_ne _ _ _ _ (fun h => hf h.symm)]
    simp only [hf, false_and, if_false, innerLookup]

/-- Last-write-wins for the two-level grouped choices of the combined path. -/
theorem innerLookup_buildChoices_fold (l : List PClass)
    (m : List (String × List (Option String × CoreSchema)))
    (f : String) (dv : Option String) :
    innerLookup (l.foldl addChoice m) f dv =
      match (l.filter (fun c => decide (c.varnameType = f) && decide (c.declaredType = dv))).getLast? with
      | some c => some (CoreSchema.direct c)
      | none => innerLookup m f dv := by
  induction l using List.reverseRecOn with
  | nil => simp
  | append_singleton xs x ih =>
    rw [List.foldl_append, List.filter_append]
    simp only [List.foldl_cons, List.foldl_nil]
    rw [innerLookup_addChoice]
    by_cases hx : x.varnameType = f ∧ x.declaredType = dv
    · simp [hx, hx.1, hx.2, List.getLast?_concat]
    · have hfilter : (decide (x.varnameType = f) && decide (x.declaredType = dv)) = false := by
        rcases not_and_or.1 hx with h | h <;> simp [h]
      simp only [hx, if_false]
      rw [ih]
      simp [hfilter]

theorem keysOf_dictSet {α β : Type} [DecidableEq α] (m : List (α × β)) (k : α) (v : β) :
    keysOf (dictSet m k v) = if k ∈ keysOf m then keysOf m else keysOf m ++ [k] := by
  induction m with
  | nil => simp [dictSet, keysOf]
  | cons kv rest ih =>
    obtain ⟨k2, v2⟩ := kv
    by_cases h : k = k2
    · subst h
      simp [dictSet, keysOf]
    · simp only [keysOf, List.map_cons] at ih ⊢
      rw [show dictSet ((k2, v2) :: rest) k v = (k2, v2) :: dictSet rest k v by
        simp [dictSet, h]]
      simp only [List.map_cons, ih]
      by_cases hk : k ∈ List.map Prod.fst rest
      · simp [hk, List.mem_cons, h]
      · simp [hk, List.mem_cons, h]

/-- The grouping fold keys the outer dictionary by discriminator field name:
the keys stay duplicate-free and collect exactly the field names seen. -/
theorem keysOf_foldl_addChoice (l : List PClass)
    (m : List (String × List (Option String × CoreSchema))) (h : (keysOf m).Nodup) :
    (keysOf (l.foldl addChoice m)).Nodup ∧
    (keysOf (l.foldl addChoice m)).toFinset =
      (keysOf m).toFinset ∪ (l.map PClass.varnameType).toFinset := by
  induction l generalizing m with
  | nil => simp [h]
  | cons c rest ih =>
    simp only [List.foldl_cons]
    by_cases hc : c.varnameType ∈ keysOf m
    · have hkeys : keysOf (addChoice m c) = keysOf m := by
        rw [addChoice, keysOf_dictSet, if_pos hc]
      have h2 := ih (addChoice m c) (by rw [hkeys]; exact h)
      refine ⟨h2.1, ?_⟩
      rw [h2.2, hkeys]
      simp only [List.map_cons, List.toFinset_cons]
      rw [Finset.union_insert,
        Finset.insert_eq_self.2 (Finset.mem_union_left _ (List.mem_toFinset.2 hc))]
    · have hkeys : keysOf (addChoice m c) = keysOf m ++ [c.varnameType] := by
        rw [addChoice, keysOf_dictSet, if_neg hc]
      have hnodup2 : (keysOf (addChoice m c)).Nodup := by
        rw [hkeys]
        simp [List.nodup_append, h, hc]
      have h2 := ih (addChoice m c) hnodup2
      refine ⟨h2.1, ?_⟩
      rw [h2.2, hkeys]
      simp only [List.toFinset_append, List.toFinset_cons, List.toFinset_nil, List.map_cons]
      ext x
      simp
      tauto

theorem schemaOfUnions_ne_single (us : List CoreSchema) (h : us.length ≠ 1) :
    schemaOfUnions us = CoreSchema.union us := by
  rcases us with _ | ⟨a, _ | ⟨b, t⟩⟩
  · rfl
  · simp at h
  · rfl

theorem combinedSchema_not_single (l : List PClass) (h : l.length ≠ 1) :
    combinedSchema l = Except.ok (schemaOfUnions
      ((buildChoices l).map (fun dc => CoreSchema.taggedUnion dc.1 dc.2))) := by
  rcases l with _ | ⟨a, _ | ⟨b, t⟩⟩
  · rfl
  · simp at h
  · rfl

/-- C3 counterexample: an `AND` of two disjoint hierarchies resolves to the
empty set, and compiling the empty set does not fail: the bare path returns an
empty tagged union and the combined path returns an empty undiscriminated
union.  No `EmptyVariantSet` error is raised anywhere in the source. -/
theorem compile_empty_counterexample :
    (Expr.andE (.leaf (.node DogC [])) (.leaf (.node CatC []))).evaluate = ∅ ∧
    asTaggedUnion "type" [] = Except.ok (CoreSchema.taggedUnion "type" []) ∧
    combinedSchema [] = Except.ok (CoreSchema.union []) :=
  ⟨by decide, rfl, rfl⟩

/-- C3 (amended): compiling an empty resolved variant set never raises.  The
bare-hierarchy path returns an empty tagged-union schema and the combinator
path returns an empty undiscriminated union; the failure the specification
expects is left to the external validation engine. -/
theorem compile_empty_returns_empty_union (vt : String) :
    asTaggedUnion vt [] = Except.ok (CoreSchema.taggedUnion vt []) ∧
    combinedSchema [] = Except.ok (CoreSchema.union []) :=
  ⟨rfl, rfl⟩

/-- C4 counterexample: a bare hierarchy whose two variants use the two
discriminator field names `type` and `kind` compiles, through
`PluginModel._as_tagged_union`, to a single `TaggedUnion` keyed by the root's
field name — not to a `UnionOfUnions` with one branch per field name. -/
theorem bare_compile_two_fields_counterexample :
    bareCoreSchema mixedTree =
      Except.ok (CoreSchema.taggedUnion "type"
        [(some "dog", CoreSchema.direct DogC), (some "kindling", CoreSchema.direct KindC)]) :=
  rfl

/-- C4 (amended): only the combinator compilation path
(`PluganticCombinedModel.__get_pydantic_core_schema__`) partitions the
resolved set by discriminator field name; when the members span two or more
distinct field names it returns an undiscriminated union with exactly one
tagged-union branch per distinct field name.  The bare-hierarchy path instead
always builds a single tagged union keyed by the root's field name. -/
theorem combined_compile_partitions (l : List PClass)
    (h2 : 2 ≤ ((l.map PClass.varnameType).dedup).length) :
    combinedSchema l =
      Except.ok (CoreSchema.union
        ((buildChoices l).map (fun dc => CoreSchema.taggedUnion dc.1 dc.2))) ∧
    ((buildChoices l).map (fun dc => CoreSchema.taggedUnion dc.1 dc.2)).length =
      ((l.map PClass.varnameType).dedup).length := by
  have hkeys := keysOf_foldl_addChoice l [] (by simp [keysOf])
  have hlen : (keysOf (buildChoices l)).length = ((l.map PClass.varnameType).dedup).length := by
    rw [buildChoices, ← List.toFinset_card_of_nodup hkeys.1, hkeys.2, ← List.card_toFinset]
    simp [keysOf]
  have hblen : ((buildChoices l).map (fun dc => CoreSchema.taggedUnion dc.1 dc.2)).length =
      (keysOf (buildChoices l)).length := by
    simp [keysOf]
  have hnot1 : l.length ≠ 1 := by
    intro hl
    rcases l with _ | ⟨a, _ | ⟨b, t⟩⟩
    · simp at hl
    · simp [List.dedup_cons_of_not_mem] at h2
    · simp at hl
  rw [combinedSchema_not_single l hnot1,
    schemaOfUnions_ne_single _ (by rw [hblen, hlen]; omega)]
  exact ⟨rfl, by rw [hblen, hlen]⟩

/-- Witness for C4 (amended) at a set spanning the field names `type`, `kind`. -/
theorem combined_compile_partitions_witness :
    combinedSchema [DogC, KindC] =
      Except.ok (CoreSchema.union
        ((buildChoices [DogC, KindC]).map (fun dc => CoreSchema.taggedUnion dc.1 dc.2))) ∧
    ((buildChoices [DogC, KindC]).map (fun dc => CoreSchema.taggedUnion dc.1 dc.2)).length =
      (([DogC, KindC].map PClass.varnameType).dedup).length :=
  combined_compile_partitions [DogC, KindC] (by decide)

/-- C5 counterexample: `Dog` and `Dog2` share the field name `type` and the
literal `dog`; compiling them raises no error on either path — the later
variant silently overwrites the earlier one and a single entry remains. -/
theorem duplicate_value_overwrite_counterexample :
    combinedSchema [DogC, Dog2C] =
      Except.ok (CoreSchema.taggedUnion "type" [(some "dog", CoreSchema.direct Dog2C)]) ∧
    asTaggedUnion "type" [DogC, Dog2C] =
      Except.ok (CoreSchema.taggedUnion "type" [(some "dog", CoreSchema.direct Dog2C)]) :=
  ⟨rfl, rfl⟩

/-- C5 (amended): compilation never raises on duplicate discriminator values.
On both paths the choices dictionary answers each (field name, value) pair
with the schema of the last-iterated variant that wrote to it, so colliding
variants are silently overwritten instead of reported. -/
theorem duplicate_value_last_write_wins (l : List PClass) (vt f : String)
    (dv : Option String) :
    (∃ s, combinedSchema l = Except.ok s) ∧
    (∃ s, asTaggedUnion vt l = Except.ok s) ∧
    innerLookup (buildChoices l) f dv =
      ((l.filter (fun c => decide (c.varnameType = f) && decide (c.declaredType = dv))).getLast?).map
        CoreSchema.direct ∧
    assocLookup (buildChoicesFlat l) dv =
      ((l.filter (fun c => decide (c.declaredType = dv))).getLast?).map CoreSchema.direct := by
  refine ⟨?_, ?_, ?_, ?_⟩
  · rcases l with _ | ⟨a, _ | ⟨b, t⟩⟩ <;> exact ⟨_, rfl⟩
  · rcases l with _ | ⟨a, _ | ⟨b, t⟩⟩ <;> exact ⟨_, rfl⟩
  · rw [buildChoices, innerLookup_buildChoices_fold]
    cases h : (List.filter (fun c => decide (c.varnameType = f) && decide (c.declaredType = dv)) l).getLast? with
    | none => simp [innerLookup, assocLookup]
    | some c => simp
  · rw [buildChoicesFlat, foldInsert_lookup]
    cases h : (List.filter (fun c => decide (c.declaredType = dv)) l).getLast? with
    | none => simp [assocLookup]
    | some c => simp

theorem eq_singleton_of_mem_iff {l : List PClass} {v : PClass}
    (hmem : ∀ c, c ∈ l ↔ c = v) (hnd : l.Nodup) : l = [v] := by
  rcases l with _ | ⟨a, t⟩
  · exact absurd ((hmem v).2 rfl) (List.not_mem_nil v)
  · have ha : a = v := (hmem a).1 (List.mem_cons_self a t)
    subst ha
    rcases t with _ | ⟨b, t2⟩
    · rfl
    · have hb : b = a := (hmem b).1 (by simp)
      subst hb
      exact absurd (List.mem_cons_self b t2) (List.nodup_cons.1 hnd).1

/-- C6: when the resolved variant set has exactly one member, both the bare
path (`PluginModel._as_tagged_union`) and the combined path
(`PluganticCombinedModel.__get_pydantic_core_schema__`) hand that sole
variant to the handler directly: the result is its own schema with no
wrapping union and no discriminator. -/
theorem singleton_compile_direct (vt : String) (v : PClass) (l : List PClass)
    (hmem : ∀ c, c ∈ l ↔ c = v) (hnd : l.Nodup) :
    asTaggedUnion vt l = Except.ok (CoreSchema.direct v) ∧
    combinedSchema l = Except.ok (CoreSchema.direct v) := by
  rw [eq_singleton_of_mem_iff hmem hnd]
  exact ⟨rfl, rfl⟩

/-- Witness for C6 at the singleton set containing `Dog`. -/
theorem singleton_compile_direct_witness :
    asTaggedUnion "type" [DogC] = Except.ok (CoreSchema.direct DogC) ∧
    combinedSchema [DogC] = Except.ok (CoreSchema.direct DogC) :=
  singleton_compile_direct "type" DogC [DogC] (fun c => List.mem_singleton) (by decide)

theorem markClass_name (ns : List String) (c : PClass) :
    (markClass ns c).name = c.name := by
  rw [markClass]
  split <;> rfl

mutual
theorem pathTo_mark (t : PTree) (ns : List String) (p : String) :
    (PTree.mark ns t).pathTo p = (t.pathTo p).map (List.map (markClass ns)) := by
  cases t with
  | node c cs =>
    simp only [PTree.mark, PTree.pathTo, markClass_name]
    by_cases h : c.name = p
    · simp [h]
    · simp only [h, if_false]
      rw [pathToAux_mark cs ns p]
      cases pathToAux cs p <;> simp

theorem pathToAux_mark (ts : List PTree) (ns : List String) (p : String) :
    pathToAux (markAux ns ts) p = (pathToAux ts p).map (List.map (markClass ns)) := by
  cases ts with
  | nil => simp [markAux, pathToAux]
  | cons t ts =>
    simp only [markAux, pathToAux]
    cases h : t.pathTo p with
    | some l => simp [pathTo_mark t ns p, h]
    | none => simp [pathTo_mark t ns p, h, pathToAux_mark ts ns p]
end

mutual
theorem pathTo_mem_name (t : PTree) (p : String) (l : List PClass)
    (h : t.pathTo p = some l) : ∃ x ∈ l, x.name = p := by
  cases t with
  | node c cs =>
    simp only [PTree.pathTo] at h
    by_cases hc : c.name = p
    · simp only [hc, if_true, Option.some.injEq] at h
      exact ⟨c, by rw [← h]; exact List.mem_singleton_self c, hc⟩
    · simp only [hc, if_false, Option.map_eq_some'] at h
      obtain ⟨l0, hl0, hl⟩ := h
      obtain ⟨x, hx, hxn⟩ := pathToAux_mem_name cs p l0 hl0
      exact ⟨x, by rw [← hl]; exact List.mem_cons_of_mem c hx, hxn⟩

theorem pathToAux_mem_name (ts : List PTree) (p : String) (l : List PClass)
    (h : pathToAux ts p = some l) : ∃ x ∈ l, x.name = p := by
  cases ts with
  | nil => simp [pathToAux] at h
  | cons t ts =>
    simp only [pathToAux] at h
    cases h2 : t.pathTo p with
    | some l2 =>
      rw [h2] at h
      cases h
      exact pathTo_mem_name t p l h2
    | none =>
      rw [h2] at h
      exact pathToAux_mem_name ts p l h
end

mutual
theorem pathTo_subset_nodes (t : PTree) (p : String) (l : List PClass)
    (h : t.pathTo p = some l) : ∀ x ∈ l, x ∈ t.nodesList := by
  cases t with
  | node c cs =>
    simp only [PTree.pathTo] at h
    simp only [PTree.nodesList]
    by_cases hc : c.name = p
    · simp only [hc, if_true, Option.some.injEq] at h
      intro x hx
      rw [← h] at hx
      rw [List.mem_singleton.1 hx]
      exact List.mem_cons_self c _
    · simp only [hc, if_false, Option.map_eq_some'] at h
      obtain ⟨l0, hl0, hl⟩ := h
      intro x hx
      rw [← hl] at hx
      rcases List.mem_cons.1 hx with h3 | h3
      · rw [h3]; exact List.mem_cons_self c _
      · exact List.mem_cons_of_mem c (pathToAux_subset_nodes cs p l0 hl0 x h3)

theorem pathToAux_subset_nodes (ts : List PTree) (p : String) (l : List PClass)
    (h : pathToAux ts p = some l) : ∀ x ∈ l, x ∈ nodesListAux ts := by
  cases ts with
  | nil => simp [pathToAux] at h
  | cons t ts =>
    simp only [pathToAux] at h
    simp only [nodesListAux]
    cases h2 : t.pathTo p with
    | some l2 =>
      rw [h2] at h
      cases h
      intro x hx
      exact List.mem_append_left _ (pathTo_subset_nodes t p l h2 x hx)
    | none =>
      rw [h2] at h
      intro x hx
      exact List.mem_append_right _ (pathToAux_subset_nodes ts p l h x hx)
end

theorem validListAux_append (a b : List PTree) :
    validListAux (a ++ b) = validListAux a ++ validListAux b := by
  induction a with
  | nil => simp [validListAux]
  | cons t ts ih => simp [validListAux, ih]

mutual
theorem addChild_mem_validList (t : PTree) (p : String) (c : PClass)
    (hval : isValidSubclass c = true) (h : (t.pathTo p).isSome = true) :
    c ∈ (t.addChild p c).validList := by
  cases t with
  | node c0 cs =>
    simp only [PTree.addChild]
    by_cases hc : c0.name = p
    · simp only [hc, if_true, PTree.validList, validListAux_append]
      apply List.mem_append_right
      apply List.mem_append_right
      simp [validListAux, PTree.validList, hval]
    · simp only [PTree.pathTo, hc, if_false, Option.isSome_map'] at h
      simp only [hc, if_false, PTree.validList]
      exact List.mem_append_right _ (addChildAux_mem cs p c hval h)

theorem addChildAux_mem (ts : List PTree) (p : String) (c : PClass)
    (hval : isValidSubclass c = true) (h : (pathToAux ts p).isSome = true) :
    c ∈ validListAux (addChildAux ts p c) := by
  cases ts with
  | nil => simp [pathToAux] at h
  | cons t ts =>
    simp only [pathToAux] at h
    simp only [addChildAux, validListAux]
    cases h2 : t.pathTo p with
    | some l2 =>
      exact List.mem_append_left _
        (addChild_mem_validList t p c hval (by rw [h2]; rfl))
    | none =>
      rw [h2] at h
      exact List.mem_append_right _ (addChildAux_mem ts p c hval h)
end

theorem PClass_reset_eq (c : PClass) (h : c.wasSchemaCreated = false) :
    { c with wasSchemaCreated := false } = c := by
  cases c
  subst h
  rfl

/-- C7: once a compilation has marked a variant `v` (bare-path or combinator
compilation: its name is among the marked names `ns`), declaring a new direct
descendant of `v` raises the `ValueError` of `__init_subclass__`; before any
compilation (no flag set anywhere), the same declaration succeeds and the new
concrete descendant is a member of the subsequently resolved variant set. -/
theorem freeze_guard_spec (t : PTree) (ns : List String) (v c : PClass)
    (l : List PClass)
    (hpath : t.pathTo v.name = some l)
    (hincl : v.name ∈ ns)
    (hcheck : c.checkSchemaUsage = true)
    (hfresh : noneFlagged t = true)
    (hcwas : c.wasSchemaCreated = false)
    (hcval : isValidSubclass c = true) :
    declareUnder (PTree.mark ns t) v.name c = Except.error (schemaCreatedMsg c.name) ∧
    declareUnder t v.name c = Except.ok (t.addChild v.name c) ∧
    c ∈ (t.addChild v.name c).getValidSubclasses := by
  have hflag : anyFlagOnPath (PTree.mark ns t) v.name = true := by
    simp only [anyFlagOnPath, pathTo_mark, hpath, Option.map_some', Option.getD_some]
    obtain ⟨x, hxl, hxn⟩ := pathTo_mem_name t v.name l hpath
    apply List.any_eq_true.2
    refine ⟨markClass ns x, List.mem_map_of_mem _ hxl, ?_⟩
    rw [markClass, if_pos (by rw [hxn]; exact hincl)]
  have hnoflag : anyFlagOnPath t v.name = false := by
    simp only [anyFlagOnPath, hpath, Option.getD_some]
    rw [List.any_eq_false]
    intro x hx
    have hxn := pathTo_subset_nodes t v.name l hpath x hx
    simp only [noneFlagged, List.all_eq_true] at hfresh
    have h2 := hfresh x hxn
    simp at h2
    simp [h2]
  refine ⟨?_, ?_, ?_⟩
  · simp [declareUnder, hcheck, hflag]
  · simp only [declareUnder, hcheck, hnoflag, hcwas, Bool.or_self, Bool.and_self,
      Bool.true_and, Bool.false_or, Bool.or_false, Bool.and_false, if_false,
      Bool.false_eq_true, Except.ok.injEq]
    congr 1
    cases c
    simp_all
  · rw [PTree.getValidSubclasses, List.mem_toFinset]
    exact addChild_mem_validList t v.name c hcval (by rw [hpath]; rfl)

/-- Witness for C7: compile the `Animal` hierarchy (marking `Animal`, `Dog`,
`Cat`), then declaring `NewDog` under `Dog` fails; on the fresh hierarchy the
declaration succeeds and `NewDog` resolves as a valid variant. -/
theorem freeze_guard_spec_witness :
    declareUnder (PTree.mark (compileMarkNames animalTree) animalTree) DogC.name NewDogC =
      Except.error (schemaCreatedMsg NewDogC.name) ∧
    declareUnder animalTree DogC.name NewDogC =
      Except.ok (animalTree.addChild DogC.name NewDogC) ∧
    NewDogC ∈ (animalTree.addChild DogC.name NewDogC).getValidSubclasses :=
  freeze_guard_spec animalTree (compileMarkNames animalTree) DogC NewDogC [AnimalC, DogC]
    (by decide) (by decide) (by decide) (by decide) (by decide) (by decide)

/-- C8: a variant declared with a (truthy) discriminator literal injects that
literal into the keyword arguments when the field is not supplied, so the
constructed instance's discriminator field holds the literal, and the value
passes the `Literal` validation of the external engine. -/
theorem init_discriminator_default (c : PClass) (v : String)
    (kwargs : List (String × String)) (rest : List String)
    (hd : c.declaredType = some v) (hv : v ≠ "")
    (hk : ∀ kv ∈ kwargs, kv.1 ≠ c.varnameType) :
    assocLookup (initKwargs c kwargs) c.varnameType = some v ∧
    validatesLiteral (TypeHint.lit v rest) v = true := by
  constructor
  · simp only [initKwargs, hd]
    rw [if_neg hv, foldInsert_lookup]
    have hfil : kwargs.filter (fun kv => decide (kv.1 = c.varnameType)) = [] := by
      rw [List.filter_eq_nil_iff]
      intro kv hkv
      simp [hk kv hkv]
    simp [hfil, assocLookup]
  · simp [validatesLiteral]

/-- Witness for C8: `Dog()` — no keyword arguments — carries `type = "dog"`. -/
theorem init_discriminator_default_witness :
    assocLookup (initKwargs DogC []) DogC.varnameType = some "dog" ∧
    validatesLiteral (TypeHint.lit "dog" []) "dog" = true :=
  init_discriminator_default DogC "dog" [] [] rfl (by decide)
    (fun kv h => absurd h (List.not_mem_nil kv))

theorem createFieldDefault_field (fi : FieldInfo) (v : String) :
    createFieldDefault (Attr.field fi) v = Attr.field { fi with default := some v } := by
  by_cases h : fi.default = some v
  · obtain ⟨d, desc, md⟩ := fi
    simp only at h
    simp [createFieldDefault, h]
  · simp [createFieldDefault, h, mergeFieldInfos, fieldWithDefault]

/-- C9: registering the discriminator literal as the default of a field that
already carries metadata changes only the default: description and constraint
metadata are preserved by the merge. -/
theorem create_field_default_preserves_metadata (fi : FieldInfo) (v : String) :
    ∃ fi2, createFieldDefault (Attr.field fi) v = Attr.field fi2 ∧
      fi2.default = some v ∧ fi2.description = fi.description ∧
      fi2.metadata = fi.metadata :=
  ⟨{ fi with default := some v }, createFieldDefault_field fi v, rfl, rfl, rfl⟩

/-- C10: for a discriminator field annotated `Literal[v, r, ...]` with two or
more arguments, only the FIRST argument counts as the declared discriminator
value: it is what `_get_declared_type` returns, it becomes the registered
field default, the remaining literal arguments are ignored by the
bookkeeping, and it is the variant's key in the compiled choices. -/
theorem literal_first_arg_spec (v r : String) (rest : List String) (fi : FieldInfo)
    (c : PClass) (hv : v ≠ "") (hc : c.declaredType = some v) :
    getDeclaredType (TypeHint.lit v (r :: rest)) = some v ∧
    ensureVarnameDefault (TypeHint.lit v (r :: rest)) (Attr.field fi) =
      Attr.field { fi with default := some v } ∧
    ensureVarnameDefault (TypeHint.lit v (r :: rest)) (Attr.field fi) =
      ensureVarnameDefault (TypeHint.lit v []) (Attr.field fi) ∧
    buildChoices [c] = [(c.varnameType, [(some v, CoreSchema.direct c)])] := by
  refine ⟨rfl, ?_, ?_, ?_⟩
  · show (if v = "" then Attr.field fi else createFieldDefault (Attr.field fi) v) = _
    rw [if_neg hv]
    exact createFieldDefault_field fi v
  · rfl
  · simp [buildChoices, addChoice, dictSet, assocLookup, hc]

/-- Witness for C10 at `Literal["dog", "wolf"]` on a field carrying metadata. -/
theorem literal_first_arg_spec_witness :
    getDeclaredType (TypeHint.lit "dog" ["wolf"]) = some "dog" ∧
    ensureVarnameDefault (TypeHint.lit "dog" ["wolf"])
        (Attr.field ⟨none, some "which animal", ["minLength 1"]⟩) =
      Attr.field { (⟨none, some "which animal", ["minLength 1"]⟩ : FieldInfo) with
        default := some "dog" } ∧
    ensureVarnameDefault (TypeHint.lit "dog" ["wolf"])
        (Attr.field ⟨none, some "which animal", ["minLength 1"]⟩) =
      ensureVarnameDefault (TypeHint.lit "dog" [])
        (Attr.field ⟨none, some "which animal", ["minLength 1"]⟩) ∧
    buildChoices [DogC] = [(DogC.varnameType, [(some "dog", CoreSchema.direct DogC)])] :=
  literal_first_arg_spec "dog" "wolf" [] ⟨none, some "which animal", ["minLength 1"]⟩
    DogC (by decide) rfl

end Plugantic
